import Mathlib

/-!
# Verification of seller.py (marketplace stock/price synchronizer)

Shallow embedding of the pure data-transformation core of `src/seller.py`:
`divide`, `price_conversion`, `create_stocks`, `create_prices`, the
pagination loop of `get_offer_ids`, and the batch pipeline of `main` /
`upload_prices`.  Python strings are modelled as Lean `String`
(character lists where character-level reasoning is needed); Python list
mutation (`offer_ids.remove`) is modelled by explicit state passing: the
embedded `create_stocks` returns the final value of its `offer_ids`
argument alongside its result.  Exceptions (`int()` on a malformed
quantity) are modelled with `Option`.
-/

namespace Seller

/-- The character class `[0-9]` of the regex in `price_conversion`:
ASCII digits only. -/
def isAsciiDigit (c : Char) : Bool :=
  decide ('0' ≤ c) && decide (c ≤ '9')

/-- Embeds `seller.divide` (src/seller.py:253-254):
`for i in range(0, len(lst), n): yield lst[i : i + n]`.
For step `n ≥ 1`, `range(0, L, n)` enumerates `k * n` for
`k < ⌈L / n⌉ = (L + n - 1) / n`, and the slice `lst[i : i + n]` is
`(lst.drop i).take n`.  (Python raises `ValueError` for `n = 0`; the
claims only ever use positive `n`.) -/
def divide (lst : List α) (n : Nat) : List (List α) :=
  (List.range ((lst.length + n - 1) / n)).map (fun k => (lst.drop (k * n)).take n)

theorem divide_nil (n : Nat) : divide ([] : List α) n = [] := by
  have h : (n - 1) / n = 0 := by
    cases n with
    | zero => simp
    | succ m => exact Nat.div_eq_of_lt (by omega)
  simp [divide, h]

theorem divide_cons (lst : List α) (n : Nat) (hn : 0 < n) (hne : lst ≠ []) :
    divide lst n = lst.take n :: divide (lst.drop n) n := by
  have hL : 1 ≤ lst.length := List.length_pos.mpr hne
  have key : (lst.length + n - 1) / n = ((lst.length - n) + n - 1) / n + 1 := by
    rcases le_or_lt lst.length n with hle | hlt
    · have h1 : (lst.length + n - 1) / n = 1 :=
        Nat.div_eq_of_lt_le (by omega) (by omega)
      have h0 : lst.length - n = 0 := by omega
      rw [h1, h0]
      have : (0 + n - 1) = n - 1 := by omega
      rw [this, Nat.div_eq_of_lt (by omega)]
    · have heq : lst.length + n - 1 = ((lst.length - n) + n - 1) + n := by omega
      rw [heq, Nat.add_div_right _ hn]
  rw [divide, key, List.range_succ_eq_map, List.map_cons, List.map_map]
  simp only [Nat.zero_mul, List.drop_zero]
  rw [divide, List.length_drop]
  congr 1
  apply List.map_congr_left
  intro k _
  simp only [Function.comp_apply]
  rw [List.drop_drop]
  congr 2
  simp [Nat.succ_mul]
  omega

theorem divide_ne_nil (lst : List α) (n : Nat) (hn : 0 < n) (hne : lst ≠ []) :
    divide lst n ≠ [] := by
  rw [divide_cons lst n hn hne]
  exact List.cons_ne_nil _ _

theorem divide_flatten_aux (n : Nat) (hn : 0 < n) :
    ∀ (k : Nat) (lst : List α), lst.length ≤ k → (divide lst n).flatten = lst := by
  intro k
  induction k with
  | zero =>
    intro lst hlen
    have : lst = [] := List.length_eq_zero.mp (Nat.le_zero.mp hlen)
    subst this
    simp [divide_nil]
  | succ k ih =>
    intro lst hlen
    by_cases hne : lst = []
    · subst hne; simp [divide_nil]
    · rw [divide_cons lst n hn hne, List.flatten_cons,
        ih (lst.drop n) (by rw [List.length_drop]; omega)]
      exact List.take_append_drop n lst

theorem drop_nil_iff (lst : List α) (n : Nat) : lst.drop n = [] ↔ lst.length ≤ n := by
  constructor
  · intro h
    have := congrArg List.length h
    rw [List.length_drop] at this
    simp at this
    omega
  · intro h
    apply List.eq_nil_of_length_eq_zero
    rw [List.length_drop]
    omega

theorem divide_dropLast_aux (n : Nat) (hn : 0 < n) :
    ∀ (k : Nat) (lst : List α), lst.length ≤ k →
      ∀ c ∈ (divide lst n).dropLast, c.length = n := by
  intro k
  induction k with
  | zero =>
    intro lst hlen
    have : lst = [] := List.length_eq_zero.mp (Nat.le_zero.mp hlen)
    subst this
    simp [divide_nil]
  | succ k ih =>
    intro lst hlen c hc
    by_cases hne : lst = []
    · subst hne; simp [divide_nil] at hc
    · rw [divide_cons lst n hn hne] at hc
      by_cases hrest : lst.drop n = []
      · rw [hrest, divide_nil] at hc
        simp at hc
      · have hnenil : divide (lst.drop n) n ≠ [] := divide_ne_nil _ n hn hrest
        rcases List.exists_cons_of_ne_nil hnenil with ⟨d, ds, hds⟩
        rw [hds, List.dropLast_cons₂, List.mem_cons] at hc
        rcases hc with hc | hc
        · subst hc
          rw [List.length_take]
          have : n < lst.length := by
            by_contra hcon
            exact hrest ((drop_nil_iff lst n).mpr (by omega))
          omega
        · exact ih (lst.drop n) (by rw [List.length_drop]; omega) c (by rw [hds]; exact hc)

theorem divide_getLast_aux (n : Nat) (hn : 0 < n) :
    ∀ (k : Nat) (lst : List α), lst.length ≤ k → lst ≠ [] →
      ∃ c, (divide lst n).getLast? = some c ∧ 1 ≤ c.length ∧ c.length ≤ n := by
  intro k
  induction k with
  | zero =>
    intro lst hlen hne
    exact absurd (List.length_eq_zero.mp (Nat.le_zero.mp hlen)) hne
  | succ k ih =>
    intro lst hlen hne
    rw [divide_cons lst n hn hne]
    by_cases hrest : lst.drop n = []
    · rw [hrest, divide_nil]
      refine ⟨lst.take n, rfl, ?_, ?_⟩
      · rw [List.length_take]
        have : 1 ≤ lst.length := List.length_pos.mpr hne
        omega
      · rw [List.length_take]; omega
    · rcases ih (lst.drop n) (by rw [List.length_drop]; omega) hrest with ⟨c, hc1, hc2, hc3⟩
      rcases List.exists_cons_of_ne_nil (divide_ne_nil _ n hn hrest) with ⟨d, ds, hds⟩
      refine ⟨c, ?_, hc2, hc3⟩
      rw [hds, List.getLast?_cons_cons, ← hds, hc1]

/-- C5: for every list `s` and positive `n`, concatenating the chunks produced
by `divide s n` yields `s` exactly; every chunk except possibly the last has
length exactly `n`; and for non-empty `s` the last chunk has length between
`1` and `n`. -/
theorem divide_spec (s : List α) (n : Nat) (hn : 0 < n) :
    (divide s n).flatten = s ∧
    (∀ c ∈ (divide s n).dropLast, c.length = n) ∧
    (s ≠ [] → ∃ c, (divide s n).getLast? = some c ∧ 1 ≤ c.length ∧ c.length ≤ n) :=
  ⟨divide_flatten_aux n hn s.length s (Nat.le_refl _),
   divide_dropLast_aux n hn s.length s (Nat.le_refl _),
   fun hne => divide_getLast_aux n hn s.length s (Nat.le_refl _) hne⟩

theorem divide_spec_witness :
    0 < 2 ∧
    ((divide [1, 2, 3, 4, 5] 2).flatten = [1, 2, 3, 4, 5] ∧
     (∀ c ∈ (divide [1, 2, 3, 4, 5] 2).dropLast, c.length = 2) ∧
     ([1, 2, 3, 4, 5] ≠ ([] : List Nat) →
       ∃ c, (divide [1, 2, 3, 4, 5] 2).getLast? = some c ∧
         1 ≤ c.length ∧ c.length ≤ 2)) :=
  ⟨by decide, divide_spec [1, 2, 3, 4, 5] 2 (by decide)⟩

/-- C6: the claim (following the docstring example `list(divide([], 2)) ==
[[]]`) says `divide` on the zero-length list yields exactly one chunk, the
empty list.  The code does not: `range(0, 0, n)` is empty, so `divide`
yields no chunk at all on the empty list, for every chunk size. -/
theorem divide_empty_yields_no_chunk :
    (∀ n : Nat, divide ([] : List Nat) n = []) ∧
    divide ([] : List Nat) 2 ≠ [[]] :=
  ⟨fun n => divide_nil n, by rw [divide_nil]; exact fun h => List.noConfusion h⟩

/-- Python `str.split(sep)` for a one-character separator: splits on every
occurrence of the separator and always returns at least one (possibly
empty) piece.  Models the `price.split(".")` of `price_conversion`. -/
def pySplit (sep : Char) : List Char → List (List Char)
  | [] => [[]]
  | c :: cs =>
    if c = sep then [] :: pySplit sep cs
    else
      match pySplit sep cs with
      | [] => [[c]]
      | p :: rest => (c :: p) :: rest

/-- Embeds `seller.price_conversion` (src/seller.py:233):
`re.sub("[^0-9]", "", price.split(".")[0])`.  Element `[0]` of the split is
its head (the split always returns a non-empty list), and `re.sub` with an
empty replacement on the class `[^0-9]` keeps exactly the ASCII digits. -/
def price_conversion (price : String) : String :=
  String.mk (((pySplit '.' price.toList).headD []).filter isAsciiDigit)

/-- The spec's own description of the Price Normalizer (§4.4, claim C8):
take the prefix of the input before the first period character (all of it
if no period occurs), then remove every character that is not an ASCII
digit. -/
def specPriceNormalize (price : String) : String :=
  String.mk ((price.toList.takeWhile (fun c => c != '.')).filter isAsciiDigit)

theorem pySplit_ne_nil (sep : Char) : ∀ cs : List Char, pySplit sep cs ≠ []
  | [] => by simp [pySplit]
  | c :: cs => by
    by_cases h : c = sep
    · simp [pySplit, h]
    · simp only [pySplit, if_neg h]
      cases hps : pySplit sep cs with
      | nil => exact List.cons_ne_nil _ _
      | cons p rest => exact List.cons_ne_nil _ _

theorem pySplit_headD (sep : Char) :
    ∀ cs : List Char, (pySplit sep cs).headD [] = cs.takeWhile (fun c => c != sep)
  | [] => by simp [pySplit]
  | c :: cs => by
    by_cases h : c = sep
    · simp [pySplit, h, List.takeWhile_cons]
    · have ih := pySplit_headD sep cs
      simp only [pySplit, if_neg h]
      cases hps : pySplit sep cs with
      | nil => exact absurd hps (pySplit_ne_nil sep cs)
      | cons p rest =>
        rw [hps] at ih
        simp only [List.headD_cons] at ih
        simp [List.takeWhile_cons, h, ih]

/-- C7: of the two documented examples, the first holds but the second
fails on the code: the only period in "12 345,00 руб." is the one ending
"руб.", so the split keeps the whole prefix — including the fractional
digits after the comma — and the result is "1234500", not the documented
"12345". -/
theorem price_conversion_doc_examples :
    price_conversion "5\x27990.00 руб." = "5990" ∧
    price_conversion "12 345,00 руб." = "1234500" ∧
    price_conversion "12 345,00 руб." ≠ "12345" := by
  refine ⟨?_, ?_, ?_⟩ <;> decide

/-- C8: `price_conversion` refines the spec's description: for every input
string the result is the prefix before the first period (all of the input
if no period occurs) with every non-ASCII-digit character removed; hence
the result is always a (possibly empty) string of ASCII digits. -/
theorem price_conversion_refines (p : String) :
    price_conversion p = specPriceNormalize p ∧
    ∀ c ∈ (price_conversion p).toList, isAsciiDigit c = true := by
  constructor
  · unfold price_conversion specPriceNormalize
    rw [pySplit_headD]
  · intro c hc
    unfold price_conversion at hc
    have hc2 : c ∈ ((pySplit '.' p.toList).headD []).filter isAsciiDigit := hc
    exact List.of_mem_filter hc2

/-- One row of the supplier spreadsheet (an Inventory Row, spec §3): the
dictionaries produced by `download_stock`.  The three fields used by the
record builders are the code "Код", the quantity "Количество" and the
display price "Цена"; `seller.py` reads them with `str(watch.get(...))`,
so they are modelled as strings. -/
structure Watch where
  kod : String
  kolichestvo : String
  tsena : String
deriving DecidableEq, Repr

/-- One element of the `stocks` list built by `create_stocks`:
`{"offer_id": ..., "stock": ...}`. -/
structure StockRec where
  offer_id : String
  stock : Int
deriving DecidableEq, Repr

/-- One element of the `prices` list built by `create_prices`. -/
structure PriceRec where
  auto_action_enabled : String
  currency_code : String
  offer_id : String
  old_price : String
  price : String
deriving DecidableEq, Repr

/-- Python `int()` applied to a decimal string: an optional leading minus
sign followed by one or more ASCII digits; any other shape raises
`ValueError`, modelled as `none`.  Used for the
`int(watch.get("Количество"))` fallback branch of `create_stocks`. -/
def parseNatDigits (cs : List Char) : Option Nat :=
  if cs = [] then none
  else if cs.all isAsciiDigit then
    some (cs.foldl (fun a c => a * 10 + (c.toNat - Char.toNat (Char.ofNat 48))) 0)
  else none

def pyInt? (s : String) : Option Int :=
  match s.toList with
  | '-' :: rest => (parseNatDigits rest).map (fun n => -(n : Int))
  | cs => (parseNatDigits cs).map (fun n => (n : Int))

/-- The quantity-resolution policy inside the first loop of
`create_stocks` (src/seller.py:177-183): the sentinel ">10" yields 100,
the sentinel "1" yields 0, anything else is parsed with `int()`. -/
def quantityToStock (watch : Watch) : Option Int :=
  if watch.kolichestvo = ">10" then some 100
  else if watch.kolichestvo = "1" then some 0
  else pyInt? watch.kolichestvo

/-- The first loop of `create_stocks` (src/seller.py:175-185), with the
in-place mutation of `offer_ids` (`offer_ids.remove(...)`) made explicit:
the final value of `offer_ids` is returned alongside the accumulated
`stocks`.  `List.erase` is Python `list.remove`: it deletes the first
occurrence (the call is guarded by the `in offer_ids` membership test, so
the Python `ValueError` of `remove` cannot occur).  A `ValueError` from
`int()` aborts the whole call (`none`). -/
def create_stocksLoop :
    List Watch → List String → List StockRec → Option (List StockRec × List String)
  | [], offer_ids, stocks => some (stocks, offer_ids)
  | w :: ws, offer_ids, stocks =>
    if w.kod ∈ offer_ids then
      match quantityToStock w with
      | none => none
      | some stock =>
          create_stocksLoop ws (offer_ids.erase w.kod)
            (stocks ++ [{ offer_id := w.kod, stock := stock }])
    else create_stocksLoop ws offer_ids stocks

/-- Embeds `seller.create_stocks` (src/seller.py:172-189).  The first
component of the result is the returned `stocks` list (matched inventory
rows in file order, then a zero-stock record for every leftover offer id
in catalog order); the second component is the final value of the
caller's `offer_ids` list after the in-place removals. -/
def create_stocks (watch_remnants : List Watch) (offer_ids : List String) :
    Option (List StockRec × List String) :=
  match create_stocksLoop watch_remnants offer_ids [] with
  | none => none
  | some (stocks, remaining) =>
      some (stocks ++ remaining.map (fun oid => { offer_id := oid, stock := 0 }),
        remaining)

/-- Embeds `seller.create_prices` (src/seller.py:192-204).  The loop body
never mutates `offer_ids` (membership test only), so the embedding is a
pure function of its two arguments. -/
def create_prices (watch_remnants : List Watch) (offer_ids : List String) :
    List PriceRec :=
  (watch_remnants.filter (fun w => w.kod ∈ offer_ids)).map (fun w =>
    { auto_action_enabled := "UNKNOWN"
      currency_code := "RUB"
      offer_id := w.kod
      old_price := "0"
      price := price_conversion w.tsena })

theorem create_stocksLoop_acc :
    ∀ (ws : List Watch) (ids : List String) (acc : List StockRec),
      create_stocksLoop ws ids acc =
        (create_stocksLoop ws ids []).map (fun p => (acc ++ p.1, p.2))
  | [], ids, acc => by simp [create_stocksLoop]
  | w :: ws, ids, acc => by
    by_cases h : w.kod ∈ ids
    · simp only [create_stocksLoop, if_pos h]
      cases hq : quantityToStock w with
      | none => simp
      | some q =>
        show create_stocksLoop ws (ids.erase w.kod)
              (acc ++ [{ offer_id := w.kod, stock := q }]) =
          Option.map (fun p => (acc ++ p.1, p.2))
            (create_stocksLoop ws (ids.erase w.kod)
              ([] ++ [{ offer_id := w.kod, stock := q }]))
        rw [List.nil_append,
            create_stocksLoop_acc ws (ids.erase w.kod)
              (acc ++ [({ offer_id := w.kod, stock := q } : StockRec)]),
            create_stocksLoop_acc ws (ids.erase w.kod)
              ([({ offer_id := w.kod, stock := q } : StockRec)])]
        cases create_stocksLoop ws (ids.erase w.kod) [] with
        | none => simp
        | some p => simp
    · simp only [create_stocksLoop, if_neg h]
      exact create_stocksLoop_acc ws ids acc

theorem create_stocksLoop_snd :
    ∀ (ws : List Watch) (ids : List String), ids.Nodup →
      ∀ (acc st : List StockRec) (rem : List String),
        create_stocksLoop ws ids acc = some (st, rem) →
        rem = ids.filter (fun oid => oid ∉ ws.map Watch.kod)
  | [], ids, hnd, acc, st, rem, h => by
    simp only [create_stocksLoop, Option.some.injEq, Prod.mk.injEq] at h
    simp [← h.2]
  | w :: ws, ids, hnd, acc, st, rem, h => by
    simp only [create_stocksLoop] at h
    by_cases hmem : w.kod ∈ ids
    · rw [if_pos hmem] at h
      cases hq : quantityToStock w with
      | none => rw [hq] at h; exact absurd h (by simp)
      | some q =>
        rw [hq] at h
        have ih := create_stocksLoop_snd ws (ids.erase w.kod) (hnd.erase _) _ _ _ h
        rw [ih, List.Nodup.erase_eq_filter hnd, List.filter_filter]
        apply List.filter_congr
        intro oid _
        by_cases h1 : oid = w.kod <;> by_cases h2 : oid ∈ ws.map Watch.kod <;>
          simp [h1, h2]
    · rw [if_neg hmem] at h
      have ih := create_stocksLoop_snd ws ids hnd _ _ _ h
      rw [ih]
      apply List.filter_congr
      intro oid hoid
      have hne : oid ≠ w.kod := fun he => hmem (he ▸ hoid)
      by_cases h2 : oid ∈ ws.map Watch.kod <;> simp [hne, h2]

theorem create_stocksLoop_fst_sublist :
    ∀ (ws : List Watch) (ids : List String) (st : List StockRec) (rem : List String),
      create_stocksLoop ws ids [] = some (st, rem) →
      (st.map StockRec.offer_id).Sublist (ws.map Watch.kod)
  | [], ids, st, rem, h => by
    simp only [create_stocksLoop, Option.some.injEq, Prod.mk.injEq] at h
    simp [← h.1]
  | w :: ws, ids, st, rem, h => by
    simp only [create_stocksLoop] at h
    by_cases hmem : w.kod ∈ ids
    · rw [if_pos hmem] at h
      cases hq : quantityToStock w with
      | none => rw [hq] at h; exact absurd h (by simp)
      | some q =>
        rw [hq] at h
        replace h : create_stocksLoop ws (ids.erase w.kod)
            ([] ++ [({ offer_id := w.kod, stock := q } : StockRec)]) =
              some (st, rem) := h
        rw [create_stocksLoop_acc ws (ids.erase w.kod)
            ([] ++ [({ offer_id := w.kod, stock := q } : StockRec)])] at h
        cases hrec : create_stocksLoop ws (ids.erase w.kod) [] with
        | none => rw [hrec] at h; exact absurd h (by simp)
        | some p =>
          rw [hrec] at h
          simp only [Option.map_some', Option.some.injEq, Prod.mk.injEq] at h
          have ih := create_stocksLoop_fst_sublist ws (ids.erase w.kod) p.1 p.2
            (by rw [hrec])
          rw [← h.1]
          simp only [List.nil_append, List.map_cons, List.map_cons]
          exact List.Sublist.cons₂ _ ih
    · rw [if_neg hmem] at h
      have ih := create_stocksLoop_fst_sublist ws ids st rem h
      simp only [List.map_cons]
      exact List.Sublist.cons _ ih

theorem create_stocksLoop_covers :
    ∀ (ws : List Watch) (ids : List String) (st : List StockRec)
      (rem : List String) (oid : String),
      create_stocksLoop ws ids [] = some (st, rem) → oid ∈ ids →
      oid ∈ rem ∨ ∃ r ∈ st, r.offer_id = oid
  | [], ids, st, rem, oid, h, hin => by
    simp only [create_stocksLoop, Option.some.injEq, Prod.mk.injEq] at h
    exact Or.inl (h.2 ▸ hin)
  | w :: ws, ids, st, rem, oid, h, hin => by
    simp only [create_stocksLoop] at h
    by_cases hmem : w.kod ∈ ids
    · rw [if_pos hmem] at h
      cases hq : quantityToStock w with
      | none => rw [hq] at h; exact absurd h (by simp)
      | some q =>
        rw [hq] at h
        replace h : create_stocksLoop ws (ids.erase w.kod)
            ([] ++ [({ offer_id := w.kod, stock := q } : StockRec)]) =
              some (st, rem) := h
        rw [create_stocksLoop_acc ws (ids.erase w.kod)
            ([] ++ [({ offer_id := w.kod, stock := q } : StockRec)])] at h
        cases hrec : create_stocksLoop ws (ids.erase w.kod) [] with
        | none => rw [hrec] at h; exact absurd h (by simp)
        | some p =>
          rw [hrec] at h
          simp only [Option.map_some', Option.some.injEq, Prod.mk.injEq] at h
          by_cases heq : oid = w.kod
          · refine Or.inr ⟨{ offer_id := w.kod, stock := q }, ?_, heq.symm⟩
            rw [← h.1]
            simp
          · have hin2 : oid ∈ ids.erase w.kod := by
              rw [List.mem_erase_of_ne heq]
              exact hin
            rcases create_stocksLoop_covers ws (ids.erase w.kod) p.1 p.2 oid
                (by rw [hrec]) hin2 with hc | ⟨r, hr, hoid⟩
            · exact Or.inl (h.2 ▸ hc)
            · refine Or.inr ⟨r, ?_, hoid⟩
              rw [← h.1]
              simp [hr]
    · rw [if_neg hmem] at h
      exact create_stocksLoop_covers ws ids st rem oid h hin

theorem create_stocksLoop_total :
    ∀ (ws : List Watch) (ids : List String),
      (ws.map Watch.kod).Nodup →
      (∀ w ∈ ws, w.kod ∈ ids) →
      (∀ w ∈ ws, (quantityToStock w).isSome) →
      ∃ st rem, create_stocksLoop ws ids [] = some (st, rem) ∧ st.length = ws.length
  | [], ids, _, _, _ => ⟨[], ids, rfl, rfl⟩
  | w :: ws, ids, hnd, hmem, hqt => by
    have hw : w.kod ∈ ids := hmem w (List.mem_cons_self _ _)
    rcases Option.isSome_iff_exists.mp (hqt w (List.mem_cons_self _ _)) with ⟨q, hq⟩
    have hnd2 : (ws.map Watch.kod).Nodup := by
      simp only [List.map_cons] at hnd
      exact hnd.of_cons
    have hmem2 : ∀ w2 ∈ ws, w2.kod ∈ ids.erase w.kod := by
      intro w2 hw2
      have hne : w2.kod ≠ w.kod := by
        intro he
        simp only [List.map_cons, List.nodup_cons] at hnd
        exact hnd.1 (he ▸ List.mem_map_of_mem Watch.kod hw2)
      rw [List.mem_erase_of_ne hne]
      exact hmem w2 (List.mem_cons_of_mem _ hw2)
    rcases create_stocksLoop_total ws (ids.erase w.kod) hnd2 hmem2
        (fun w2 hw2 => hqt w2 (List.mem_cons_of_mem _ hw2)) with ⟨st, rem, hres, hlen⟩
    refine ⟨{ offer_id := w.kod, stock := q } :: st, rem, ?_, by simp [hlen]⟩
    simp only [create_stocksLoop, if_pos hw, hq]
    rw [create_stocksLoop_acc ws (ids.erase w.kod)
        ([] ++ [({ offer_id := w.kod, stock := q } : StockRec)]), hres]
    simp

/-- Embeds the price path of `seller.upload_prices` (src/seller.py:257-262):
a fresh offer-id list is fetched, `create_prices` is run on it, and the
result is uploaded in chunks of 1000.  The value is the list of chunks
passed one by one to `update_price`. -/
def upload_pricesBatches (watch_remnants : List Watch) (offer_ids : List String) :
    List (List PriceRec) :=
  divide (create_prices watch_remnants offer_ids) 1000

/-- Embeds the try-block data flow of `seller.main` (src/seller.py:279-288),
with the network boundary as parameters (`offer_ids` stands for the result
of `get_offer_ids`, `watch_remnants` for `download_stock`).  Python passes
the same list object `offer_ids` first to `create_stocks` — which depletes
it in place — and then to `create_prices`, so the embedding feeds the
final `offer_ids` state returned by `create_stocks` into `create_prices`.
The value is the pair of chunk lists handed to `update_stocks`
(chunk size 100) and to `update_price` (chunk size 900). -/
def mainBatches (watch_remnants : List Watch) (offer_ids : List String) :
    Option (List (List StockRec) × List (List PriceRec)) :=
  match create_stocks watch_remnants offer_ids with
  | none => none
  | some (stocks, depleted_ids) =>
      some (divide stocks 100, divide (create_prices watch_remnants depleted_ids) 900)

/-- C2: `create_stocks` depletes its `offer_ids` argument in place: after it
returns, the caller's list holds exactly the identifiers (in catalog
order) that matched no inventory row — every matched identifier has been
removed.  `create_prices` never modifies `offer_ids` (it is a pure
function of its arguments in this embedding, as its loop body only reads
the list), so in `main` the price records are computed from the depleted
list left behind by `create_stocks`. -/
theorem create_stocks_depletes_offer_ids
    (watch_remnants : List Watch) (offer_ids : List String)
    (hnd : offer_ids.Nodup)
    (stocks : List StockRec) (final_ids : List String)
    (h : create_stocks watch_remnants offer_ids = some (stocks, final_ids)) :
    final_ids = offer_ids.filter
      (fun oid => oid ∉ watch_remnants.map Watch.kod) ∧
    (∀ oid ∈ offer_ids, oid ∈ watch_remnants.map Watch.kod → oid ∉ final_ids) ∧
    mainBatches watch_remnants offer_ids =
      some (divide stocks 100, divide (create_prices watch_remnants final_ids) 900) := by
  unfold create_stocks at h
  cases hloop : create_stocksLoop watch_remnants offer_ids [] with
  | none => rw [hloop] at h; exact absurd h (by simp)
  | some p =>
    rw [hloop] at h
    simp only [Option.some.injEq, Prod.mk.injEq] at h
    have hrem : p.2 = offer_ids.filter
        (fun oid => oid ∉ watch_remnants.map Watch.kod) :=
      create_stocksLoop_snd watch_remnants offer_ids hnd [] p.1 p.2 (by rw [hloop])
    have hfin : final_ids = p.2 := h.2.symm
    refine ⟨hfin.trans hrem, ?_, ?_⟩
    · intro oid _ hmatched hmem
      rw [hfin, hrem, List.mem_filter] at hmem
      have := hmem.2
      simp only [decide_eq_true_eq] at this
      exact this hmatched
    · unfold mainBatches create_stocks
      rw [hloop]
      simp only [← h.1, ← h.2]

theorem create_stocks_depletes_offer_ids_witness :
    (["A", "B"] : List String).Nodup ∧
    (["B"] = (["A", "B"] : List String).filter
        (fun oid =>
          oid ∉ ([{ kod := "A", kolichestvo := "3", tsena := "x" }] : List Watch).map
            Watch.kod) ∧
      (∀ oid ∈ (["A", "B"] : List String),
        oid ∈ ([{ kod := "A", kolichestvo := "3", tsena := "x" }] : List Watch).map
          Watch.kod → oid ∉ (["B"] : List String)) ∧
      mainBatches [{ kod := "A", kolichestvo := "3", tsena := "x" }] ["A", "B"] =
        some (divide [{ offer_id := "A", stock := 3 },
                      { offer_id := "B", stock := 0 }] 100,
          divide (create_prices [{ kod := "A", kolichestvo := "3", tsena := "x" }]
            ["B"]) 900)) :=
  ⟨by decide,
   create_stocks_depletes_offer_ids
     [{ kod := "A", kolichestvo := "3", tsena := "x" }] ["A", "B"] (by decide)
     [{ offer_id := "A", stock := 3 }, { offer_id := "B", stock := 0 }] ["B"]
     (by decide)⟩

/-- C3: on a successful run of `create_stocks` (offer identifiers assumed
pairwise distinct, as marketplace catalog keys are), the result is the
inventory-derived records first — their identifiers a subsequence of the
inventory file order — followed by a quantity-0 record for every
identifier of the catalog that matched no inventory row, in catalog
order; every identifier of the catalog, matched or not, receives a
record. -/
theorem create_stocks_zero_fill_and_order
    (wr : List Watch) (ids : List String) (hnd : ids.Nodup)
    (stocks : List StockRec) (final_ids : List String)
    (hres : create_stocks wr ids = some (stocks, final_ids)) :
    (∃ st0, create_stocksLoop wr ids [] = some (st0, final_ids) ∧
      (st0.map StockRec.offer_id).Sublist (wr.map Watch.kod) ∧
      stocks = st0 ++ final_ids.map (fun oid => { offer_id := oid, stock := 0 }) ∧
      final_ids = ids.filter (fun oid => oid ∉ wr.map Watch.kod)) ∧
    (∀ oid ∈ ids, oid ∉ wr.map Watch.kod →
      ({ offer_id := oid, stock := 0 } : StockRec) ∈ stocks) ∧
    (∀ oid ∈ ids, ∃ r ∈ stocks, r.offer_id = oid) := by
  unfold create_stocks at hres
  cases hloop : create_stocksLoop wr ids [] with
  | none => rw [hloop] at hres; exact absurd hres (by simp)
  | some p =>
    obtain ⟨st0, rem⟩ := p
    rw [hloop] at hres
    simp only [Option.some.injEq, Prod.mk.injEq] at hres
    have hrem : rem = ids.filter (fun oid => oid ∉ wr.map Watch.kod) :=
      create_stocksLoop_snd wr ids hnd [] st0 rem hloop
    have hfin : final_ids = rem := hres.2.symm
    have hst : stocks = st0 ++
        rem.map (fun oid => ({ offer_id := oid, stock := 0 } : StockRec)) :=
      hres.1.symm
    refine ⟨⟨st0, by rw [hfin]; try exact hloop, ?_,
      by rw [hfin]; try exact hst, hfin.trans hrem⟩, ?_, ?_⟩
    · exact create_stocksLoop_fst_sublist wr ids st0 rem hloop
    · intro oid hin hnomatch
      have hmem : oid ∈ rem := by
        rw [hrem, List.mem_filter]
        exact ⟨hin, by simpa using hnomatch⟩
      rw [hst]
      exact List.mem_append_right _ (List.mem_map_of_mem _ hmem)
    · intro oid hin
      rcases create_stocksLoop_covers wr ids st0 rem oid hloop hin with
        hc | ⟨r, hr, hoid⟩
      · refine ⟨{ offer_id := oid, stock := 0 }, ?_, rfl⟩
        rw [hst]
        exact List.mem_append_right _ (List.mem_map_of_mem _ hc)
      · exact ⟨r, hst ▸ List.mem_append_left _ hr, hoid⟩

theorem create_stocks_zero_fill_and_order_witness :
    (["A", "D"] : List String).Nodup ∧
    ((∃ st0, create_stocksLoop [{ kod := "A", kolichestvo := "2", tsena := "x" }]
          ["A", "D"] [] = some (st0, ["D"]) ∧
        (st0.map StockRec.offer_id).Sublist
          (([{ kod := "A", kolichestvo := "2", tsena := "x" }] : List Watch).map
            Watch.kod) ∧
        ([{ offer_id := "A", stock := 2 }, { offer_id := "D", stock := 0 }] :
            List StockRec) =
          st0 ++ (["D"] : List String).map (fun oid => { offer_id := oid, stock := 0 }) ∧
        (["D"] : List String) = (["A", "D"] : List String).filter
          (fun oid =>
            oid ∉ ([{ kod := "A", kolichestvo := "2", tsena := "x" }] : List Watch).map
              Watch.kod)) ∧
      (∀ oid ∈ (["A", "D"] : List String),
        oid ∉ ([{ kod := "A", kolichestvo := "2", tsena := "x" }] : List Watch).map
          Watch.kod →
        ({ offer_id := oid, stock := 0 } : StockRec) ∈
          ([{ offer_id := "A", stock := 2 }, { offer_id := "D", stock := 0 }] :
            List StockRec)) ∧
      (∀ oid ∈ (["A", "D"] : List String),
        ∃ r ∈ ([{ offer_id := "A", stock := 2 }, { offer_id := "D", stock := 0 }] :
          List StockRec), r.offer_id = oid)) :=
  ⟨by decide,
   create_stocks_zero_fill_and_order
     [{ kod := "A", kolichestvo := "2", tsena := "x" }] ["A", "D"] (by decide)
     [{ offer_id := "A", stock := 2 }, { offer_id := "D", stock := 0 }] ["D"]
     (by decide)⟩

/-- C4: the quantity-resolution policy of `create_stocks`: the sentinel
string ">10" yields stock 100, the sentinel "1" yields stock 0, any other
quantity string is handed to `int()`; and on the spec's example inventory
`[{A, ">10"}, {B, "1"}, {C, "3"}]` with catalog `[A, B, C, D]` the result
carries stock 100 for A, 0 for B, 3 for C and 0 for D. -/
theorem create_stocks_quantity_policy :
    (∀ w : Watch, w.kolichestvo = ">10" → quantityToStock w = some 100) ∧
    (∀ w : Watch, w.kolichestvo = "1" → quantityToStock w = some 0) ∧
    (∀ w : Watch, w.kolichestvo ≠ ">10" → w.kolichestvo ≠ "1" →
      quantityToStock w = pyInt? w.kolichestvo) ∧
    create_stocks
      [{ kod := "A", kolichestvo := ">10", tsena := "x" },
       { kod := "B", kolichestvo := "1", tsena := "x" },
       { kod := "C", kolichestvo := "3", tsena := "x" }]
      ["A", "B", "C", "D"] =
    some ([{ offer_id := "A", stock := 100 }, { offer_id := "B", stock := 0 },
           { offer_id := "C", stock := 3 }, { offer_id := "D", stock := 0 }],
          ["D"]) := by
  refine ⟨?_, ?_, ?_, by decide⟩
  · intro w hw
    simp [quantityToStock, hw]
  · intro w hw
    simp [quantityToStock, hw]
  · intro w hw1 hw2
    simp [quantityToStock, hw1, hw2]

theorem create_stocks_quantity_policy_witness :
    (({ kod := "X", kolichestvo := ">10", tsena := "x" } : Watch).kolichestvo = ">10" ∧
      quantityToStock { kod := "X", kolichestvo := ">10", tsena := "x" } = some 100) ∧
    (({ kod := "X", kolichestvo := "1", tsena := "x" } : Watch).kolichestvo = "1" ∧
      quantityToStock { kod := "X", kolichestvo := "1", tsena := "x" } = some 0) ∧
    (({ kod := "X", kolichestvo := "7", tsena := "x" } : Watch).kolichestvo ≠ ">10" ∧
      ({ kod := "X", kolichestvo := "7", tsena := "x" } : Watch).kolichestvo ≠ "1" ∧
      quantityToStock { kod := "X", kolichestvo := "7", tsena := "x" } = pyInt? "7") :=
  ⟨⟨rfl, create_stocks_quantity_policy.1 _ rfl⟩,
   ⟨rfl, create_stocks_quantity_policy.2.1 _ rfl⟩,
   ⟨by decide, by decide, create_stocks_quantity_policy.2.2.1 _ (by decide) (by decide)⟩⟩

/-- C9 counterexample: the claim quantifies over every inventory list, but
`create_prices` removes nothing from `offer_ids`, so an inventory with a
duplicated identifier row emits one price record per row: with two "A"
rows and catalog ["A"], "A" is present in both the inventory and the
offer identifiers yet receives two price records, not exactly one. -/
theorem create_prices_duplicate_rows_counterexample :
    ("A" ∈ ([{ kod := "A", kolichestvo := "1", tsena := "5" },
             { kod := "A", kolichestvo := "1", tsena := "5" }] : List Watch).map
        Watch.kod) ∧
    ("A" ∈ (["A"] : List String)) ∧
    (create_prices
        [{ kod := "A", kolichestvo := "1", tsena := "5" },
         { kod := "A", kolichestvo := "1", tsena := "5" }]
        ["A"]).countP (fun r => r.offer_id == "A") = 2 := by
  refine ⟨by decide, by decide, by decide⟩

/-- C9 (amended): for an inventory whose identifier codes are pairwise
distinct — the duplicated-row case is the only failure — every emitted
price record belongs to an identifier present in the inventory (so
identifiers absent from the inventory receive no record), every record
carries currency_code "RUB" and old_price "0", and every identifier
present in both the inventory and the offer identifiers receives exactly
one record. -/
theorem create_prices_unique_records
    (wr : List Watch) (ids : List String) (hnd : (wr.map Watch.kod).Nodup) :
    (∀ r ∈ create_prices wr ids,
      r.offer_id ∈ wr.map Watch.kod ∧ r.currency_code = "RUB" ∧ r.old_price = "0") ∧
    (∀ oid, oid ∈ wr.map Watch.kod → oid ∈ ids →
      (create_prices wr ids).countP (fun r => r.offer_id == oid) = 1) := by
  constructor
  · intro r hr
    unfold create_prices at hr
    rcases List.mem_map.mp hr with ⟨w, hw, hrw⟩
    refine ⟨?_, by rw [← hrw], by rw [← hrw]⟩
    rw [← hrw]
    exact List.mem_map_of_mem Watch.kod (List.mem_of_mem_filter hw)
  · intro oid hmem hids
    have step : (create_prices wr ids).countP (fun r => r.offer_id == oid) =
        wr.countP (fun w => w.kod == oid) := by
      unfold create_prices
      rw [List.countP_map, List.countP_filter]
      apply List.countP_congr
      intro w _
      simp only [Function.comp_apply, Bool.and_eq_true, beq_iff_eq, decide_eq_true_eq]
      constructor
      · intro hb
        exact hb.1
      · intro hb
        refine ⟨hb, ?_⟩
        rw [hb]
        exact hids
    rw [step]
    have hcount : wr.countP (fun w => w.kod == oid) = (wr.map Watch.kod).count oid := by
      rw [List.count_eq_countP, List.countP_map]
      rfl
    rw [hcount]
    exact List.count_eq_one_of_mem hnd hmem

theorem create_prices_unique_records_witness :
    (([{ kod := "A", kolichestvo := "1", tsena := "5" }] : List Watch).map
        Watch.kod).Nodup ∧
    ((∀ r ∈ create_prices [{ kod := "A", kolichestvo := "1", tsena := "5" }] ["A"],
        r.offer_id ∈ ([{ kod := "A", kolichestvo := "1", tsena := "5" }] :
          List Watch).map Watch.kod ∧
        r.currency_code = "RUB" ∧ r.old_price = "0") ∧
      (∀ oid, oid ∈ ([{ kod := "A", kolichestvo := "1", tsena := "5" }] :
          List Watch).map Watch.kod → oid ∈ (["A"] : List String) →
        (create_prices [{ kod := "A", kolichestvo := "1", tsena := "5" }]
          ["A"]).countP (fun r => r.offer_id == oid) = 1)) :=
  ⟨by decide,
   create_prices_unique_records [{ kod := "A", kolichestvo := "1", tsena := "5" }]
     ["A"] (by decide)⟩

/-- One item of a product-list page: `get_offer_ids` only ever reads its
"offer_id" field (src/seller.py:78). -/
structure Product where
  offer_id : String
deriving DecidableEq, Repr

/-- One response of `get_product_list` (src/seller.py:14-47), i.e. the
"result" object: the fields "items", "total" and "last_id" that
`get_offer_ids` reads. -/
structure ProductPage where
  items : List Product
  total : Nat
  last_id : String

/-- The while-loop of `get_offer_ids` (src/seller.py:69-75) with explicit
fuel.  The marketplace API is an opaque collaborator, so the responses
are an oracle `resp` indexed by call number (the code's `last_id` cursor
is threaded back to the API and is absorbed into that indexing; it does
not otherwise influence the loop).  `getOfferIdsLoop resp fuel acc i`
runs at most `fuel` more iterations starting from call number `i` with
`acc` the `product_list` accumulated so far, and returns the final
`product_list` if the loop breaks within `fuel` iterations, `none`
otherwise. -/
def getOfferIdsLoop (resp : Nat → ProductPage) :
    Nat → List Product → Nat → Option (List Product)
  | 0, _, _ => none
  | fuel + 1, acc, i =>
    let acc2 := acc ++ (resp i).items
    if (resp i).total = acc2.length then some acc2
    else getOfferIdsLoop resp fuel acc2 (i + 1)

/-- Embeds `seller.get_offer_ids` (src/seller.py:50-79) under the fuel
semantics: the loop from an empty `product_list`, followed by the
extraction of every item's "offer_id" (src/seller.py:76-79). -/
def get_offer_ids (resp : Nat → ProductPage) (fuel : Nat) : Option (List String) :=
  (getOfferIdsLoop resp fuel [] 0).map (fun ps => ps.map Product.offer_id)

/-- The items accumulated by the first `k` paged responses, in order. -/
def accumItems (resp : Nat → ProductPage) (k : Nat) : List Product :=
  ((List.range k).map (fun i => (resp i).items)).flatten

theorem accumItems_succ (resp : Nat → ProductPage) (k : Nat) :
    accumItems resp (k + 1) = accumItems resp k ++ (resp k).items := by
  unfold accumItems
  rw [List.range_succ, List.map_append, List.flatten_append]
  simp

theorem getOfferIdsLoop_sound (resp : Nat → ProductPage) :
    ∀ (fuel j : Nat) (ps : List Product),
      getOfferIdsLoop resp fuel (accumItems resp j) j = some ps →
      ∃ i, j ≤ i ∧ (resp i).total = (accumItems resp (i + 1)).length ∧
        ps = accumItems resp (i + 1)
  | 0, j, ps, h => by exact absurd h (by simp [getOfferIdsLoop])
  | fuel + 1, j, ps, h => by
    rw [getOfferIdsLoop] at h
    simp only [← accumItems_succ resp j] at h
    by_cases hb : (resp j).total = (accumItems resp (j + 1)).length
    · rw [if_pos hb] at h
      exact ⟨j, Nat.le_refl j, hb, (Option.some.injEq _ _ ▸ h).symm⟩
    · rw [if_neg hb] at h
      rcases getOfferIdsLoop_sound resp fuel (j + 1) ps h with ⟨i, hji, hcond, hps⟩
      exact ⟨i, by omega, hcond, hps⟩

theorem getOfferIdsLoop_complete (resp : Nat → ProductPage) :
    ∀ (d j : Nat),
      (resp (j + d)).total = (accumItems resp (j + d + 1)).length →
      ∃ ps, getOfferIdsLoop resp (d + 1) (accumItems resp j) j = some ps
  | 0, j, hcond => by
    rw [getOfferIdsLoop]
    simp only [← accumItems_succ resp j]
    rw [if_pos (by simpa using hcond)]
    exact ⟨accumItems resp (j + 1), rfl⟩
  | d + 1, j, hcond => by
    rw [getOfferIdsLoop]
    simp only [← accumItems_succ resp j]
    by_cases hb : (resp j).total = (accumItems resp (j + 1)).length
    · rw [if_pos hb]
      exact ⟨accumItems resp (j + 1), rfl⟩
    · rw [if_neg hb]
      have hcond2 : (resp ((j + 1) + d)).total =
          (accumItems resp ((j + 1) + d + 1)).length := by
        have h1 : (j + 1) + d = j + (d + 1) := by omega
        rw [h1]
        exact hcond
      exact getOfferIdsLoop_complete resp d (j + 1) hcond2

/-- C10: the pagination loop of `get_offer_ids` terminates — under the fuel
semantics, for some finite fuel — exactly when some finite prefix of the
paged responses brings the accumulated item count to equal that page's
reported total, and it then returns the "offer_id" of every accumulated
item; when no prefix does (the check fails at every call), no amount of
fuel suffices: the code's unbounded `while True` loop never exits. -/
theorem get_offer_ids_termination (resp : Nat → ProductPage) :
    ((∃ fuel r, get_offer_ids resp fuel = some r) ↔
      (∃ i, (resp i).total = (accumItems resp (i + 1)).length)) ∧
    (∀ fuel r, get_offer_ids resp fuel = some r →
      ∃ i, (resp i).total = (accumItems resp (i + 1)).length ∧
        r = (accumItems resp (i + 1)).map Product.offer_id) := by
  have hnil : accumItems resp 0 = [] := by simp [accumItems]
  constructor
  · constructor
    · rintro ⟨fuel, r, hr⟩
      unfold get_offer_ids at hr
      cases hloop : getOfferIdsLoop resp fuel [] 0 with
      | none => rw [hloop] at hr; exact absurd hr (by simp)
      | some ps =>
        rcases getOfferIdsLoop_sound resp fuel 0 ps (by rw [hnil]; exact hloop) with
          ⟨i, _, hcond, _⟩
        exact ⟨i, hcond⟩
    · rintro ⟨i, hcond⟩
      rcases getOfferIdsLoop_complete resp i 0 (by simpa using hcond) with ⟨ps, hps⟩
      refine ⟨i + 1, ps.map Product.offer_id, ?_⟩
      unfold get_offer_ids
      rw [← hnil, hps]
      rfl
  · intro fuel r hr
    unfold get_offer_ids at hr
    cases hloop : getOfferIdsLoop resp fuel [] 0 with
    | none => rw [hloop] at hr; exact absurd hr (by simp)
    | some ps =>
      rcases getOfferIdsLoop_sound resp fuel 0 ps (by rw [hnil]; exact hloop) with
        ⟨i, _, hcond, hps⟩
      refine ⟨i, hcond, ?_⟩
      rw [hloop] at hr
      simp only [Option.map_some', Option.some.injEq] at hr
      rw [← hr, hps]

theorem divide_exact (n : Nat) (hn : 0 < n) :
    ∀ (a : Nat) (lst : List α), lst.length = a * n →
      (divide lst n).length = a ∧ ∀ c ∈ divide lst n, c.length = n
  | 0, lst, hlen => by
    have : lst = [] := List.eq_nil_of_length_eq_zero (by omega)
    subst this
    simp [divide_nil]
  | a + 1, lst, hlen => by
    have hne : lst ≠ [] := by
      intro h
      subst h
      simp at hlen
      omega
    rw [divide_cons lst n hn hne]
    have hdlen : (lst.drop n).length = a * n := by
      rw [List.length_drop, hlen]
      have : (a + 1) * n = a * n + n := by ring
      omega
    rcases divide_exact n hn a (lst.drop n) hdlen with ⟨ih1, ih2⟩
    refine ⟨by simp [ih1], ?_⟩
    intro c hc
    rcases List.mem_cons.mp hc with hc | hc
    · subst hc
      rw [List.length_take, hlen]
      have : (a + 1) * n = a * n + n := by ring
      omega
    · exact ih2 c hc

theorem divide_two (lst : List α) (n : Nat) (hn : 0 < n)
    (h1 : n < lst.length) (h2 : lst.length ≤ 2 * n) :
    divide lst n = [lst.take n, lst.drop n] := by
  have hne : lst ≠ [] := by
    intro h
    subst h
    simp at h1
  have hdne : lst.drop n ≠ [] := by
    intro h
    rw [drop_nil_iff] at h
    omega
  rw [divide_cons lst n hn hne, divide_cons (lst.drop n) n hn hdne]
  have hdd : (lst.drop n).drop n = [] := by
    rw [List.drop_drop, drop_nil_iff]
    omega
  rw [hdd, divide_nil,
    List.take_of_length_le (show (lst.drop n).length ≤ n by rw [List.length_drop]; omega)]

/-- A marketplace offer identifier for the end-to-end scenario: the string
of `i` letters a, so that distinct indices give distinct identifiers. -/
def sampleId (i : Nat) : String :=
  String.mk (List.replicate i 'a')

/-- The end-to-end scenario's inventory: 1500 rows with pairwise distinct
codes, a plain numeric quantity and a simple price. -/
def sampleInventory : List Watch :=
  (List.range 1500).map
    (fun i => { kod := sampleId i, kolichestvo := "5", tsena := "100.00" })

/-- The end-to-end scenario's marketplace catalog: exactly the codes of the
1500 inventory rows. -/
def sampleCatalog : List String :=
  (List.range 1500).map sampleId

theorem sampleId_injective : Function.Injective sampleId := by
  intro i j h
  unfold sampleId at h
  have hdata : List.replicate i 'a' = List.replicate j 'a' := by
    injection h
  have := congrArg List.length hdata
  simpa using this

theorem sampleInventory_map_kod : sampleInventory.map Watch.kod = sampleCatalog := by
  unfold sampleInventory sampleCatalog
  rw [List.map_map]
  rfl

theorem sampleCatalog_nodup : sampleCatalog.Nodup :=
  List.Nodup.map sampleId_injective (List.nodup_range 1500)

theorem create_prices_nil_ids (wr : List Watch) : create_prices wr [] = [] := by
  unfold create_prices
  rw [List.filter_eq_nil_iff.mpr]
  · rfl
  · intro a _
    simp

theorem create_prices_length_of_all_mem (wr : List Watch) (ids : List String)
    (h : ∀ w ∈ wr, w.kod ∈ ids) :
    (create_prices wr ids).length = wr.length := by
  unfold create_prices
  rw [List.length_map, List.filter_eq_self.mpr]
  intro a ha
  simpa using h a ha

/-- C1: the end-to-end 1500-row scenario.  The stock side behaves as
claimed — `main` issues 15 stock-update calls of 100 records each — and so
does the alternate `upload_prices` path (2 price calls of 1000 and 500).
But on the main path the claimed 2 price-update calls of 900 and 600 do
not happen: `create_stocks` has emptied `offer_ids` (every identifier
matched), `create_prices` therefore returns no record, and `main` issues
ZERO price-update calls. -/
theorem main_scenario_1500_rows :
    sampleInventory.length = 1500 ∧
    (sampleInventory.map Watch.kod).Nodup ∧
    (∀ w ∈ sampleInventory, w.kod ∈ sampleCatalog) ∧
    (∃ stockBatches,
      mainBatches sampleInventory sampleCatalog = some (stockBatches, []) ∧
      stockBatches.length = 15 ∧ (∀ b ∈ stockBatches, b.length = 100)) ∧
    (upload_pricesBatches sampleInventory sampleCatalog).map List.length =
      [1000, 500] := by
  have hmemall : ∀ w ∈ sampleInventory, w.kod ∈ sampleCatalog := by
    intro w hw
    rcases List.mem_map.mp hw with ⟨i, hi, hwi⟩
    rw [← hwi]
    exact List.mem_map_of_mem sampleId hi
  have hinvlen : sampleInventory.length = 1500 := by
    unfold sampleInventory
    rw [List.length_map, List.length_range]
  have hnd : (sampleInventory.map Watch.kod).Nodup := by
    rw [sampleInventory_map_kod]
    exact sampleCatalog_nodup
  have hq : ∀ w ∈ sampleInventory, (quantityToStock w).isSome := by
    intro w hw
    rcases List.mem_map.mp hw with ⟨i, _, hwi⟩
    rw [← hwi]
    rfl
  obtain ⟨st, rem, hloop, hstlen⟩ :=
    create_stocksLoop_total sampleInventory sampleCatalog hnd hmemall hq
  have hrem : rem = sampleCatalog.filter
      (fun oid => oid ∉ sampleInventory.map Watch.kod) :=
    create_stocksLoop_snd sampleInventory sampleCatalog sampleCatalog_nodup
      [] st rem hloop
  have hremnil : rem = [] := by
    rw [hrem, sampleInventory_map_kod, List.filter_eq_nil_iff]
    intro a ha
    simp [ha]
  have hcs : create_stocks sampleInventory sampleCatalog = some (st, []) := by
    unfold create_stocks
    rw [hloop, hremnil]
    simp
  have hstlen2 : st.length = 1500 := by rw [hstlen, hinvlen]
  obtain ⟨hlen15, hall100⟩ :=
    divide_exact 100 (by omega) 15 st (by rw [hstlen2])
  have hlcp : (create_prices sampleInventory sampleCatalog).length = 1500 := by
    rw [create_prices_length_of_all_mem sampleInventory sampleCatalog hmemall, hinvlen]
  refine ⟨hinvlen, hnd, hmemall, ⟨divide st 100, ?_, hlen15, hall100⟩, ?_⟩
  · unfold mainBatches
    rw [hcs]
    show some (divide st 100, divide (create_prices sampleInventory []) 900) =
      some (divide st 100, [])
    rw [create_prices_nil_ids, divide_nil]
  · unfold upload_pricesBatches
    rw [divide_two _ 1000 (by omega) (by rw [hlcp]; omega) (by rw [hlcp]; omega)]
    simp only [List.map_cons, List.map_nil, List.length_take, List.length_drop, hlcp]
    norm_num
